import Mathlib

/-!
Verification of the AsciiDoc processor core (`asciidoc_processor.py`).

The Python source is shallowly embedded: each core operation becomes a pure
Lean function over an explicit file-system model, heading records become a
structure, and the mutable stack of `_build_hierarchy` becomes explicit
state passing (the stack holds each open heading together with the children
closed so far; popping an entry finalises it into a node and attaches it to
the entry below, or to the top-level forest).
-/

set_option maxHeartbeats 1000000

namespace AsciidocMcp

/-- A heading record, as produced by `analyze_document_structure`:
level (number of `=` markers), stripped title, 1-based line number,
character offset of the match start, and the optional section body. -/
structure HeadingRec where
  level : Nat
  title : String
  line_number : Nat
  position : Nat
  content : Option String
deriving DecidableEq, Repr

/-- A hierarchy node: a copy of a heading record plus an ordered list of
children, mirroring `heading.copy()` + `"children": []` in
`_build_hierarchy`. -/
inductive HNode : Type where
  | mk : HeadingRec → List HNode → HNode
deriving Repr

def HNode.heading : HNode → HeadingRec
  | .mk r _ => r

def HNode.children : HNode → List HNode
  | .mk _ c => c

/-- The stack of `_build_hierarchy`: each open heading together with the
children that are already closed under it (in order). The list head is the
stack top. -/
abbrev BuildStack := List (HeadingRec × List HNode)

/-- The pop loop of `_build_hierarchy`
(`while stack and stack[-1]["level"] >= level: stack.pop()`): popping an
entry finalises it as a node and attaches it as last child of the entry
below (in the Python original the node was already linked into its parent
by reference at push time; attaching at pop time yields the same order
because siblings live on the stack over disjoint ordered intervals). -/
def popWhile (level : Nat) (hier : List HNode) : BuildStack → List HNode × BuildStack
  | [] => (hier, [])
  | [(r, cs)] =>
    if level ≤ r.level then popWhile level (hier ++ [HNode.mk r cs]) []
    else (hier, [(r, cs)])
  | (r, cs) :: (r2, cs2) :: rest2 =>
    if level ≤ r.level then popWhile level hier ((r2, cs2 ++ [HNode.mk r cs]) :: rest2)
    else (hier, (r, cs) :: (r2, cs2) :: rest2)
termination_by s => s.length
decreasing_by
  · simp
  · simp

/-- One iteration of the `for heading in headings` loop of
`_build_hierarchy`: pop all open headings of level ≥ the incoming level,
then push the incoming heading with an empty children list. -/
def buildStep (s : List HNode × BuildStack) (h : HeadingRec) : List HNode × BuildStack :=
  let s2 := popWhile h.level s.1 s.2
  (s2.1, (h, []) :: s2.2)

/-- `_build_hierarchy`: fold the heading list through the stack machine and
close every heading still open at the end (in the Python original the open
headings are already linked into the result by reference; closing them with
a final pop-to-level-0 realises the same forest purely). -/
def build_hierarchy (headings : List HeadingRec) : List HNode :=
  let s := headings.foldl buildStep ([], [])
  (popWhile 0 s.1 s.2).1

/-- Pre-order flattening of a forest: each node before its children,
children and roots in stored order. -/
def flattenForest : List HNode → List HeadingRec
  | [] => []
  | HNode.mk r cs :: rest => r :: (flattenForest cs ++ flattenForest rest)

/-- Pre-order contribution of the open stack: the stack bottom comes first,
and each entry's record is followed by its closed children, then by the
entry above it (which will become its last child). -/
def stackFlatten : BuildStack → List HeadingRec
  | [] => []
  | (r, cs) :: rest => stackFlatten rest ++ (r :: flattenForest cs)

/-- All nodes of a forest in pre-order. -/
def allNodesF : List HNode → List HNode
  | [] => []
  | HNode.mk r cs :: rest => HNode.mk r cs :: (allNodesF cs ++ allNodesF rest)

/-- Number of nodes of a forest. -/
def sizeF : List HNode → Nat
  | [] => 0
  | HNode.mk _ cs :: rest => 1 + sizeF cs + sizeF rest


/-- Levels of the roots of a forest, in order. -/
def rootLevels (f : List HNode) : List Nat := f.map (fun n => n.heading.level)

/-- A list of levels is non-increasing. -/
def nonIncr : List Nat → Bool
  | [] => true
  | [_] => true
  | a :: b :: rest => decide (b ≤ a) && nonIncr (b :: rest)

/-- Structural well-formedness of a forest produced by the hierarchy
builder: every child is of strictly larger level than its parent, and every
children list has non-increasing levels, hereditarily. -/
def goodForest : List HNode → Bool
  | [] => true
  | HNode.mk r cs :: rest =>
      cs.all (fun c => decide (r.level < c.heading.level)) && nonIncr (rootLevels cs)
        && goodForest cs && goodForest rest

/-- Conditions on the closed children of one stack entry. -/
def csOk (lvl : Nat) (cs : List HNode) : Prop :=
  goodForest cs = true ∧ nonIncr (rootLevels cs) = true ∧ ∀ c ∈ cs, lvl < c.heading.level

/-- Conditions between a stack entry of level `lvl` and the entry directly
below it. -/
def pairOk (lvl : Nat) : BuildStack → Prop
  | [] => True
  | e :: _ => e.1.level < lvl ∧ ∀ c ∈ e.2, lvl ≤ c.heading.level

/-- Invariant of the whole stack. -/
def stackOk : BuildStack → Prop
  | [] => True
  | e :: rest => csOk e.1.level e.2 ∧ pairOk e.1.level rest ∧ stackOk rest

/-- Level of the bottom entry of the stack, if any. -/
def bottomLevel : BuildStack → Option Nat
  | [] => none
  | [e] => some e.1.level
  | _ :: e2 :: rest => bottomLevel (e2 :: rest)

/-- Invariant of the finished top-level forest relative to the stack. -/
def hierOk (hier : List HNode) (st : BuildStack) : Prop :=
  goodForest hier = true ∧ nonIncr (rootLevels hier) = true ∧
    ∀ lvl, bottomLevel st = some lvl → ∀ n ∈ hier, lvl ≤ n.heading.level

/-- Invariant preserved by the pop loop while a heading of level `L` is
being processed. -/
def midInv (L : Nat) (hier : List HNode) (st : BuildStack) : Prop :=
  stackOk st ∧ hierOk hier st ∧
    (st = [] → ∀ n ∈ hier, L ≤ n.heading.level) ∧
    (∀ e, st.head? = some e → ∀ c ∈ e.2, L ≤ c.heading.level)

/-- Invariant holding between two iterations of the heading loop. -/
def stateInv (s : List HNode × BuildStack) : Prop :=
  stackOk s.2 ∧ hierOk s.1 s.2 ∧ (s.2 = [] → s.1 = []) ∧
    (∀ e, s.2.head? = some e → e.2 = [])


/-- Level of the record at index `i` of a heading list (0 out of range). -/
def levelAt (hs : List HeadingRec) (i : Nat) : Nat :=
  ((hs[i]?).map HeadingRec.level).getD 0

/-- Greatest index `j < k` whose record level is strictly below `lvl`. -/
def lastBelow (hs : List HeadingRec) (lvl : Nat) : Nat → Option Nat
  | 0 => none
  | k + 1 => if levelAt hs k < lvl then some k else lastBelow hs lvl k

/-- Index of the nearest preceding heading whose level is strictly smaller
than that of the heading at index `i` (the spec side of claim C1). -/
def nearestSmaller (hs : List HeadingRec) (i : Nat) : Option Nat :=
  lastBelow hs (levelAt hs i) i

/-- Parent pre-order indices: for a forest whose first node has pre-order
index `k` and whose roots all have parent index `p`, the parent index of
every node of the forest, in pre-order. -/
def parentIdxAux (p : Option Nat) (k : Nat) : List HNode → List (Option Nat)
  | [] => []
  | HNode.mk _ cs :: rest =>
      p :: (parentIdxAux (some k) (k + 1) cs ++ parentIdxAux p (k + 1 + sizeF cs) rest)

/-- Parent pre-order index of each node of a forest, in pre-order
(`none` for the top-level roots). -/
def parentIdxs (f : List HNode) : List (Option Nat) := parentIdxAux none 0 f

/-- Context hypothesis of the bridge lemma: `pre` lists the records that
precede the forest region in the document and `p` is the claimed parent
index of the region's roots. -/
def okCtx (pre : List HeadingRec) (p : Option Nat) (f : List HNode) : Prop :=
  match p with
  | none => ∀ x ∈ pre, ∀ n ∈ f, n.heading.level ≤ x.level
  | some t => t < pre.length ∧ (∀ n ∈ f, levelAt pre t < n.heading.level) ∧
      (∀ x ∈ pre.drop (t + 1), ∀ n ∈ f, n.heading.level ≤ x.level)


/-- Python regex `\s` class (ASCII range). -/
def isPySpace (ch : Char) : Bool :=
  decide (ch = ' ') || decide (ch = '\t') || decide (ch = '\n') || decide (ch = '\r')
    || decide (ch = '\x0b') || decide (ch = '\x0c')

/-- Length of the maximal run of characters satisfying `p` at position `i`. -/
def runLen (p : Char → Bool) (txt : List Char) (i : Nat) : Nat :=
  ((txt.drop i).takeWhile p).length

/-- The slice `txt[a:b]` of a character list. -/
def slice (txt : List Char) (a b : Nat) : List Char := (txt.drop a).take (b - a)

/-- Python `str.strip()` (ASCII whitespace). -/
def stripChars (l : List Char) : List Char :=
  ((l.dropWhile isPySpace).reverse.dropWhile isPySpace).reverse

/-- Python `content.split('\n')`. -/
def splitNL : List Char → List (List Char)
  | [] => [[]]
  | ch :: rest =>
    if ch = '\n' then [] :: splitNL rest
    else
      match splitNL rest with
      | [] => [[ch]]
      | l :: ls => (ch :: l) :: ls

/-- Helper of `countWords`: `inWord` records whether the previous character
belonged to a word. -/
def countWordsAux : List Char → Bool → Nat
  | [], _ => 0
  | ch :: rest, inWord =>
    if isPySpace ch then countWordsAux rest false
    else (if inWord then 0 else 1) + countWordsAux rest true

/-- Python `len(content.split())`: number of maximal non-whitespace runs. -/
def countWords (txt : List Char) : Nat := countWordsAux txt false

/-- Whether position `p` starts a line (`^` with `re.MULTILINE`). -/
def isLineStart (txt : List Char) (p : Nat) : Bool :=
  decide (p = 0) || decide (txt[p - 1]? = some '\n')

/-- Model of the regex fragment `\s{minW,}(.+)$` starting at position `q`:
greedy whitespace (which may cross newlines), then a non-empty run of
non-newline characters up to a line end. When the greedy whitespace run
reaches a newline boundary or the end of text with nothing left for `.+`,
the engine backtracks to the largest whitespace split that still leaves a
matchable character. Returns the match end and the `(.+)` group. -/
def wsRest (txt : List Char) (q : Nat) (minW : Nat) : Option (Nat × List Char) :=
  let W := runLen isPySpace txt q
  match (List.range (W + 1)).reverse.find? (fun w =>
      decide (minW ≤ w) && decide (q + w < txt.length) && !(decide (txt[q + w]? = some '\n'))) with
  | none => none
  | some w =>
    let title := (txt.drop (q + w)).takeWhile (fun ch => !(decide (ch = '\n')))
    some (q + w + title.length, title)

/-- One heading match: start offset, end offset, level (number of `=`
markers) and the raw `(.+)` title group. -/
structure HMatch where
  start : Nat
  stop : Nat
  level : Nat
  title : List Char
deriving DecidableEq, Repr

/-- Model of one match of `^(=+)\s+(.+)$` (`re.MULTILINE`) at position `p`. -/
def headMatchAt (txt : List Char) (p : Nat) : Option HMatch :=
  if isLineStart txt p then
    let k := runLen (fun ch => decide (ch = '=')) txt p
    if k = 0 then none
    else
      match wsRest txt (p + k) 1 with
      | none => none
      | some (stop, title) => some ⟨p, stop, k, title⟩
  else none

/-- Leftmost heading match whose start is ≥ `pos` (`finditer` with a start
position: `^` still refers to real line starts). -/
def findHeadFrom (txt : List Char) (pos : Nat) : Option HMatch :=
  (List.range' pos (txt.length - pos)).findSome? (fun p => headMatchAt txt p)

/-- Fuelled scan of all non-overlapping heading matches from `pos`. -/
def headsGo (txt : List Char) : Nat → Nat → List HMatch
  | 0, _ => []
  | fuel + 1, pos =>
    match findHeadFrom txt pos with
    | none => []
    | some m => m :: headsGo txt fuel m.stop

/-- All heading matches from position `pos` on, leftmost first, each next
scan resuming at the previous match end (`finditer`). -/
def findHeadsFrom (txt : List Char) (pos : Nat) : List HMatch :=
  headsGo txt (txt.length + 1) pos

/-- The `content_end` loop of `analyze_document_structure`: starting the
heading scan again at `e`, the start of the first heading of level ≤ `lvl`,
or the end of the document. -/
def nextBoundary (txt : List Char) (lvl : Nat) (e : Nat) : Nat :=
  match (findHeadsFrom txt e).find? (fun m => decide (m.level ≤ lvl)) with
  | none => txt.length
  | some m => m.start

/-- Spec-side boundary of claim C5: the start of the next heading (in the
document's heading list `ms`) after index `i` whose level is ≤ `lvl`, or
the end of the document. -/
def claimBoundary (txt : List Char) (ms : List HMatch) (i : Nat) (lvl : Nat) : Nat :=
  match (ms.drop (i + 1)).find? (fun m2 => decide (m2.level ≤ lvl)) with
  | none => txt.length
  | some m2 => m2.start

/-- The `heading_info` record built for one match. -/
def mkHeading (txt : List Char) (include_content : Bool) (m : HMatch) : HeadingRec :=
  { level := m.level
    title := String.mk (stripChars m.title)
    line_number := (txt.take m.start).count '\n' + 1
    position := m.start
    content :=
      if include_content then
        some (String.mk (stripChars (slice txt m.stop (nextBoundary txt m.level m.stop))))
      else none }

/-- The heading-extraction loop of `analyze_document_structure`. -/
def analyzeHeadings (txt : List Char) (include_content : Bool) : List HeadingRec :=
  (findHeadsFrom txt 0).map (mkHeading txt include_content)

/-- Model of one match of `^=\s+(.+)$` at `p` (document-title pattern;
a second `=` marker makes `\s+` fail, so only level-1 headings match). -/
def titleMatchAt (txt : List Char) (p : Nat) : Option (List Char) :=
  if isLineStart txt p && decide (txt[p]? = some '=') then
    match wsRest txt (p + 1) 1 with
    | none => none
    | some (_, title) => some title
  else none

/-- Model of one match of `^:title:\s*(.+)$` at `p`. -/
def titleAttrMatchAt (txt : List Char) (p : Nat) : Option (List Char) :=
  if isLineStart txt p && decide (slice txt p (p + 7) = ":title:".data) then
    match wsRest txt (p + 7) 0 with
    | none => none
    | some (_, title) => some title
  else none

/-- `_extract_document_title`: first level-1 heading anywhere, else first
`title` attribute, else the empty string. -/
def extract_document_title (txt : List Char) : String :=
  match (List.range' 0 txt.length).findSome? (fun p => titleMatchAt txt p) with
  | some t => String.mk (stripChars t)
  | none =>
    match (List.range' 0 txt.length).findSome? (fun p => titleAttrMatchAt txt p) with
    | some t => String.mk (stripChars t)
    | none => ""

/-- File-system model: association list from path to optional content.
`some` content is a readable file; `none` is a file that exists but whose
read raises (e.g. a decode error); absent paths do not exist. -/
structure FS where
  files : List (String × Option String)

def FS.lookup (fs : FS) (p : String) : Option (Option String) :=
  (fs.files.find? (fun q => q.1 == p)).map (fun q => q.2)

/-- `Path.exists()`. -/
def FS.existsPath (fs : FS) (p : String) : Bool := (fs.lookup p).isSome

/-- `path.read_text()`, `none` when the read raises. -/
def FS.read (fs : FS) (p : String) : Option String := (fs.lookup p).bind id

structure AnalyzeOk where
  file_path : String
  title : String
  total_headings : Nat
  struct : List HNode
  lines : Nat
  characters : Nat
  words : Nat
deriving Repr

inductive AnalyzeResult where
  | error (msg : String)
  | ok (res : AnalyzeOk)
deriving Repr

/-- `analyze_document_structure`: a total function into a result-or-error
value — the embedding of "never raises past its own boundary". -/
def analyze_document_structure (fs : FS) (file_path : String) (include_content : Bool) :
    AnalyzeResult :=
  if fs.existsPath file_path = false then AnalyzeResult.error ("File not found: " ++ file_path)
  else
    match fs.read file_path with
    | none => AnalyzeResult.error ("read failure: " ++ file_path)
    | some content =>
      let txt := content.data
      let headings := analyzeHeadings txt include_content
      AnalyzeResult.ok
        { file_path := file_path
          title := extract_document_title txt
          total_headings := headings.length
          struct := build_hierarchy headings
          lines := txt.count '\n' + 1
          characters := txt.length
          words := countWords txt }

/-- Model of one match of `^include::([^\[\]]+)\[.*\]$` (`re.MULTILINE`)
at `p`: returns the target group and the match end. -/
def incMatchAt (txt : List Char) (p : Nat) : Option (List Char × Nat) :=
  if isLineStart txt p && decide (slice txt p (p + 9) = "include::".data) then
    let t := (txt.drop (p + 9)).takeWhile (fun ch => !(decide (ch = '[')) && !(decide (ch = ']')))
    if t.length = 0 then none
    else
      let b := p + 9 + t.length
      if txt[b]? = some '[' then
        let restLine := (txt.drop (b + 1)).takeWhile (fun ch => !(decide (ch = '\n')))
        let e := b + 1 + restLine.length
        if restLine.length ≥ 1 && decide (txt[e - 1]? = some ']') then some (t, e)
        else none
      else none
  else none

/-- Fuelled non-overlapping scan of include directives: yields the target
(as written) and the 1-based line number of each match. -/
def incsGo (txt : List Char) : Nat → Nat → List (String × Nat)
  | 0, _ => []
  | fuel + 1, pos =>
    match (List.range' pos (txt.length - pos)).findSome?
        (fun p => (incMatchAt txt p).map (fun r => (p, r))) with
    | none => []
    | some (p, t, e) => (String.mk t, (txt.take p).count '\n' + 1) :: incsGo txt fuel e

/-- All include directives of a file content, in document order. -/
def parseIncludes (content : String) : List (String × Nat) :=
  incsGo content.data (content.data.length + 1) 0

/-- One Include Record. -/
inductive IncludeInfo : Type where
  | mk (path : String) (resolved_path : String) (file_exists : Bool)
       (line_number : Nat) (depth : Nat) (parent_file : String)
       (nested_includes : Option (List IncludeInfo))
deriving Repr

def IncludeInfo.depth : IncludeInfo → Nat
  | .mk _ _ _ _ d _ _ => d

def IncludeInfo.nested_includes : IncludeInfo → Option (List IncludeInfo)
  | .mk _ _ _ _ _ _ n => n

/-- Directory of a path (everything before the last `/`). -/
def dirName (p : String) : String :=
  String.mk (((p.data.reverse.dropWhile (fun ch => !(decide (ch = '/')))).reverse).dropLast)

/-- Model of `(current_path.parent / include_path).resolve()` on
already-normalised paths: an absolute target stands alone, a relative one
is joined to the including file's directory. -/
def resolvePath (current : String) (target : String) : String :=
  if target.data.take 1 = ['/'] then target else dirName current ++ "/" ++ target

/-- The `for match in finditer` loop of `find_includes_in_file`,
parameterised by the recursive call `recur` (invoked at depth + 1 when
`recursive` is set, the resolved target exists and depth < 10); the
processed-path set is threaded through, as the Python set is shared. -/
def includeLoop (fs : FS) (recursive : Bool)
    (recur : String → Nat → List String → List IncludeInfo × List String)
    (current : String) (depth : Nat) :
    List (String × Nat) → List String → List IncludeInfo × List String
  | [], processed => ([], processed)
  | (tgt, ln) :: rest, processed =>
    let resolved := resolvePath current tgt
    let fe := fs.existsPath resolved
    let np :=
      if recursive && fe && decide (depth < 10) then
        let r := recur resolved (depth + 1) processed
        (some r.1, r.2)
      else (none, processed)
    let info := IncludeInfo.mk tgt resolved fe ln depth current np.1
    let r2 := includeLoop fs recursive recur current depth rest np.2
    (info :: r2.1, r2.2)

/-- `find_includes_in_file`, with a structural fuel argument: the Python
recursion is bounded by its own `depth < 10` guard, so fuel 11 at the top
call (depth 0) is never exhausted — depth rises in lock-step with each
fuel decrement. -/
def find_includes_in_file (fs : FS) (recursive : Bool) :
    Nat → String → Nat → List String → List IncludeInfo × List String
  | 0, _, _, processed => ([], processed)
  | fuel + 1, current, depth, processed =>
    if current ∈ processed then ([], processed)
    else
      let processed2 := processed ++ [current]
      match fs.read current with
      | none => ([], processed2)
      | some content =>
        includeLoop fs recursive
          (fun r d pr => find_includes_in_file fs recursive fuel r d pr)
          current depth (parseIncludes content) processed2

inductive FindIncludesResult where
  | error (msg : String)
  | ok (file_path : String) (total_includes : Nat) (includes : List IncludeInfo)
       (processed_files : List String)
deriving Repr

/-- `find_includes`. -/
def find_includes (fs : FS) (file_path : String) (recursive : Bool) : FindIncludesResult :=
  if fs.existsPath file_path = false then
    FindIncludesResult.error ("File not found: " ++ file_path)
  else
    let r := find_includes_in_file fs recursive 11 file_path 0 []
    FindIncludesResult.ok file_path r.1.length r.1 r.2

/-- Model of one match of `^:([^:]+):\s*(.*)$` (`re.MULTILINE`) at `p`:
returns the name group, the value group and the match end. -/
def attrMatchAt (txt : List Char) (p : Nat) : Option (List Char × List Char × Nat) :=
  if isLineStart txt p && decide (txt[p]? = some ':') then
    let nm := (txt.drop (p + 1)).takeWhile (fun ch => !(decide (ch = ':')))
    if nm.length = 0 then none
    else
      let r := p + 1 + nm.length
      if txt[r]? = some ':' then
        let w := runLen isPySpace txt (r + 1)
        let v := (txt.drop (r + 1 + w)).takeWhile (fun ch => !(decide (ch = '\n')))
        some (nm, v, r + 1 + w + v.length)
      else none
  else none

/-- Fuelled non-overlapping scan of attribute declarations; name and value
are stripped as in the source. -/
def attrsGo (txt : List Char) : Nat → Nat → List (String × String)
  | 0, _ => []
  | fuel + 1, pos =>
    match (List.range' pos (txt.length - pos)).findSome?
        (fun p => (attrMatchAt txt p).map (fun r => (p, r))) with
    | none => []
    | some (_, nm, v, e) =>
      (String.mk (stripChars nm), String.mk (stripChars v)) :: attrsGo txt fuel e

/-- All attribute declarations of a file content, in document order. -/
def parseAttrs (content : String) : List (String × String) :=
  attrsGo content.data (content.data.length + 1) 0

/-- Python dict insertion: overwrite in place when the key is present,
append otherwise. -/
def dictInsert (m : List (String × String)) (k v : String) : List (String × String) :=
  if m.any (fun q => q.1 == k) then
    m.map (fun q => if q.1 == k then (q.1, v) else q)
  else m ++ [(k, v)]

/-- Python dict lookup. -/
def dictGet (m : List (String × String)) (k : String) : Option String :=
  (m.find? (fun q => q.1 == k)).map (fun q => q.2)

/-- The `attributes[attr_name] = attr_value` loop of `extract_metadata`. -/
def buildAttrs (l : List (String × String)) : List (String × String) :=
  l.foldl (fun m q => dictInsert m q.1 q.2) []

structure MetadataOk where
  file_path : String
  title : String
  author : String
  email : String
  revision : String
  date : String
  attributes : List (String × String)
deriving Repr

inductive MetadataResult where
  | error (msg : String)
  | ok (res : MetadataOk)
deriving Repr

/-- `extract_metadata` (the `file_info` block — size and timestamps from
`path.stat()` — lies outside the file-system model and is omitted). -/
def extract_metadata (fs : FS) (file_path : String) : MetadataResult :=
  if fs.existsPath file_path = false then MetadataResult.error ("File not found: " ++ file_path)
  else
    match fs.read file_path with
    | none => MetadataResult.error ("read failure: " ++ file_path)
    | some content =>
      let attrs := buildAttrs (parseAttrs content)
      MetadataResult.ok
        { file_path := file_path
          title := extract_document_title content.data
          author := (dictGet attrs "author").getD ""
          email := (dictGet attrs "email").getD ""
          revision := (dictGet attrs "revnumber").getD ""
          date := (dictGet attrs "revdate").getD ""
          attributes := attrs }

/-- Case folding used to model `re.IGNORECASE` on a literal query. -/
def foldCase (case_sensitive : Bool) (ch : Char) : Char :=
  if case_sensitive then ch else ch.toLower

/-- Fuelled scan of the non-overlapping occurrence spans of the literal
query in a line (`finditer` over `re.escape(query)`): leftmost first, the
next scan resuming at the previous match end (one position forward for an
empty query). -/
def occsGo (q l : List Char) : Nat → Nat → List (Nat × Nat)
  | 0, _ => []
  | fuel + 1, pos =>
    if pos + q.length > l.length then []
    else if (l.drop pos).take q.length = q then
      (pos, pos + q.length) :: occsGo q l fuel (pos + max q.length 1)
    else occsGo q l fuel (pos + 1)

/-- All non-overlapping occurrence spans of `q` in `l`. -/
def findOccs (q l : List Char) : List (Nat × Nat) := occsGo q l (l.length + 1) 0

/-- Spec side of claim C7: the spans of every occurrence of the query in
the line, overlapping occurrences included. -/
def allOccs (q l : List Char) : List (Nat × Nat) :=
  (List.range (l.length + 1)).filterMap (fun i =>
    if (l.drop i).take q.length = q ∧ i + q.length ≤ l.length then some (i, i + q.length)
    else none)

structure SearchRes where
  file : String
  line_number : Nat
  line : String
  context : List String
  match_positions : List (Nat × Nat)
deriving DecidableEq, Repr

/-- The per-file `for i, line in enumerate(lines)` loop of
`search_content`: one Search Result per line on which the query matches,
with the clipped two-before/two-after context window. -/
def searchLines (q : List Char) (case_sensitive : Bool) (file : String)
    (lines : List (List Char)) : List SearchRes :=
  (List.range lines.length).filterMap (fun i =>
    let line := (lines[i]?).getD []
    let occs := findOccs (q.map (foldCase case_sensitive)) (line.map (foldCase case_sensitive))
    if occs = [] then none
    else some
      { file := file
        line_number := i + 1
        line := String.mk (stripChars line)
        context := ((lines.drop (i - 2)).take (min lines.length (i + 3) - (i - 2))).map String.mk
        match_positions := occs })

/-- The `for path in files_to_search` loop: returns (files_searched,
results); a file whose read raises is skipped silently. -/
def searchFiles (fs : FS) (query : String) (case_sensitive : Bool) :
    List String → List String × List SearchRes
  | [] => ([], [])
  | p :: rest =>
    match fs.read p with
    | none => searchFiles fs query case_sensitive rest
    | some content =>
      let r := searchFiles fs query case_sensitive rest
      (p :: r.1, searchLines query.data case_sensitive p (splitNL content.data) ++ r.2)

inductive SearchResult where
  | error (msg : String)
  | ok (query : String) (case_sensitive : Bool) (total_matches : Nat)
       (files_searched : List String) (results : List SearchRes)
deriving Repr

/-- `search_content`: with a file path, search only that file (it must
exist); otherwise search every `*.adoc` path of the file system (the model
of `Path.cwd().rglob("*.adoc")`). -/
def search_content (fs : FS) (query : String) (file_path : Option String)
    (case_sensitive : Bool) : SearchResult :=
  match file_path with
  | some p =>
    if fs.existsPath p = false then SearchResult.error ("File not found: " ++ p)
    else
      let pr := searchFiles fs query case_sensitive [p]
      SearchResult.ok query case_sensitive pr.2.length pr.1 pr.2
  | none =>
    let cands := (fs.files.map (fun e => e.1)).filter (fun p => ".adoc".data.isSuffixOf p.data)
    let pr := searchFiles fs query case_sensitive cands
    SearchResult.ok query case_sensitive pr.2.length pr.1 pr.2

theorem flattenForest_append (xs ys : List HNode) :
    flattenForest (xs ++ ys) = flattenForest xs ++ flattenForest ys := by
  induction xs with
  | nil => simp [flattenForest]
  | cons n xs ih =>
    cases n with
    | mk r cs => simp [flattenForest, ih]

theorem popWhile_flatten (lvl : Nat) (hier : List HNode) (st : BuildStack) :
    flattenForest (popWhile lvl hier st).1 ++ stackFlatten (popWhile lvl hier st).2
      = flattenForest hier ++ stackFlatten st := by
  induction hier, st using popWhile.induct lvl with
  | case1 hier => simp [popWhile, stackFlatten]
  | case2 hier r cs h ih =>
    rw [popWhile.eq_def]
    dsimp only
    rw [if_pos h, ih]
    simp [stackFlatten, flattenForest_append, flattenForest]
  | case3 hier r cs h =>
    rw [popWhile.eq_def]
    dsimp only
    rw [if_neg h]
  | case4 hier r cs r2 cs2 rest2 h ih =>
    rw [popWhile.eq_def]
    dsimp only
    rw [if_pos h, ih]
    simp [stackFlatten, flattenForest_append, flattenForest]
  | case5 hier r cs r2 cs2 rest2 h =>
    rw [popWhile.eq_def]
    dsimp only
    rw [if_neg h]

theorem foldl_buildStep_flatten (hs : List HeadingRec) :
    ∀ s : List HNode × BuildStack,
      flattenForest (hs.foldl buildStep s).1 ++ stackFlatten (hs.foldl buildStep s).2
        = (flattenForest s.1 ++ stackFlatten s.2) ++ hs := by
  induction hs with
  | nil => intro s; simp
  | cons h hs ih =>
    intro s
    rw [List.foldl_cons, ih]
    have := popWhile_flatten h.level s.1 s.2
    simp [buildStep, stackFlatten, flattenForest]
    rw [← List.append_assoc, this]
    simp

theorem popWhile_zero_stack (hier : List HNode) (st : BuildStack) :
    (popWhile 0 hier st).2 = [] := by
  induction hier, st using popWhile.induct 0 with
  | case1 hier => simp [popWhile]
  | case2 hier r cs h ih =>
    rw [popWhile.eq_def]
    dsimp only
    rw [if_pos h]
    exact ih
  | case3 hier r cs h => exact absurd (Nat.zero_le _) h
  | case4 hier r cs r2 cs2 rest2 h ih =>
    rw [popWhile.eq_def]
    dsimp only
    rw [if_pos h]
    exact ih
  | case5 hier r cs r2 cs2 rest2 h => exact absurd (Nat.zero_le _) h

/-- Helper: the built forest flattens back to the input. -/
theorem flatten_build (hs : List HeadingRec) :
    flattenForest (build_hierarchy hs) = hs := by
  unfold build_hierarchy
  have h1 := popWhile_flatten 0 (hs.foldl buildStep ([], [])).1 (hs.foldl buildStep ([], [])).2
  have h2 := popWhile_zero_stack (hs.foldl buildStep ([], [])).1 (hs.foldl buildStep ([], [])).2
  have h3 := foldl_buildStep_flatten hs ([], [])
  simp [stackFlatten, flattenForest] at h3
  rw [h2, stackFlatten] at h1
  simp at h1
  rw [h1, h3]

/-- C2: for every input sequence of heading records, flattening the forest
returned by `_build_hierarchy` with a pre-order walk (each node before its
children, children and roots in stored order) yields exactly the original
input sequence in its original order. -/
theorem build_hierarchy_preorder_flatten (hs : List HeadingRec) :
    flattenForest (build_hierarchy hs) = hs :=
  flatten_build hs

theorem allNodesF_map_heading (f : List HNode) :
    (allNodesF f).map HNode.heading = flattenForest f := by
  induction f using flattenForest.induct with
  | case1 => simp [allNodesF, flattenForest]
  | case2 r cs rest ih1 ih2 =>
    simp [allNodesF, flattenForest, HNode.heading, ih1, ih2]

/-- C10: `_build_hierarchy` does not alter its input records: every node of
the returned forest carries (in pre-order) exactly the corresponding input
record, unchanged; the children list lives only in the node wrapper, never
in the heading record itself, so the caller's flat heading list is
untouched by the call (the embedding is a pure function of the input). -/
theorem build_hierarchy_nodes_are_input_copies (hs : List HeadingRec) :
    (allNodesF (build_hierarchy hs)).map HNode.heading = hs := by
  rw [allNodesF_map_heading]
  exact flatten_build hs


theorem nonIncr_tail (a : Nat) (l : List Nat) (h : nonIncr (a :: l) = true) :
    nonIncr l = true := by
  cases l with
  | nil => rfl
  | cons b l =>
    simp [nonIncr] at h
    exact h.2

theorem nonIncr_head_ge (a : Nat) (l : List Nat) (h : nonIncr (a :: l) = true) :
    ∀ b ∈ l, b ≤ a := by
  induction l generalizing a with
  | nil => intro b hb; cases hb
  | cons c l ih =>
    intro b hb
    simp [nonIncr] at h
    rcases List.mem_cons.mp hb with rfl | hb
    · exact h.1
    · exact le_trans (ih c h.2 b hb) h.1

theorem nonIncr_append_singleton (l : List Nat) (x : Nat)
    (h1 : nonIncr l = true) (h2 : ∀ a ∈ l, x ≤ a) :
    nonIncr (l ++ [x]) = true := by
  induction l with
  | nil => rfl
  | cons a l ih =>
    cases l with
    | nil =>
      simp [nonIncr]
      exact h2 a (by simp)
    | cons b l =>
      simp [nonIncr] at h1 ⊢
      refine ⟨h1.1, ?_⟩
      have := ih h1.2 (fun c hc => h2 c (by simp [hc]))
      simpa [nonIncr] using this

theorem goodForest_append (xs ys : List HNode) :
    goodForest (xs ++ ys) = (goodForest xs && goodForest ys) := by
  induction xs with
  | nil => simp [goodForest]
  | cons n xs ih =>
    cases n with
    | mk r cs =>
      simp only [List.cons_append, goodForest, ih, Bool.and_assoc]

theorem bottomLevel_single (e : HeadingRec × List HNode) :
    bottomLevel [e] = some e.1.level := rfl

theorem bottomLevel_cons_cons (e e2 : HeadingRec × List HNode) (rest : BuildStack) :
    bottomLevel (e :: e2 :: rest) = bottomLevel (e2 :: rest) := rfl

theorem popWhile_inv (L : Nat) (hier : List HNode) (st : BuildStack)
    (hinv : midInv L hier st) :
    midInv L (popWhile L hier st).1 (popWhile L hier st).2 ∧
      ∀ e, (popWhile L hier st).2.head? = some e → e.1.level < L := by
  induction hier, st using popWhile.induct L with
  | case1 hier =>
    refine ⟨?_, ?_⟩
    · simpa [popWhile] using hinv
    · simp [popWhile]
  | case2 hier r cs h ih =>
    rw [popWhile.eq_def]
    dsimp only
    rw [if_pos h]
    obtain ⟨hstack, ⟨hgood, hninc, hbot⟩, hemp, htop⟩ := hinv
    obtain ⟨⟨gcs, ncs, acs⟩, -, -⟩ := hstack
    have hbotr : ∀ n ∈ hier, r.level ≤ n.heading.level := by
      intro n hn
      exact hbot r.level rfl n hn
    apply ih
    refine ⟨trivial, ⟨?_, ?_, ?_⟩, ?_, ?_⟩
    · rw [goodForest_append, hgood]
      simp [goodForest, gcs, ncs]
      exact fun c hc => acs c hc
    · unfold rootLevels
      rw [List.map_append]
      apply nonIncr_append_singleton _ _ hninc
      intro a ha
      simp [rootLevels] at ha
      obtain ⟨n, hn, rfl⟩ := ha
      exact hbotr n hn
    · intro lvl hlvl
      simp [bottomLevel] at hlvl
    · intro _ n hn
      rw [List.mem_append] at hn
      rcases hn with hn | hn
      · exact le_trans h (hbotr n hn)
      · simp at hn
        subst hn
        simpa [HNode.heading] using h
    · intro e he
      simp at he
  | case3 hier r cs h =>
    rw [popWhile.eq_def]
    dsimp only
    rw [if_neg h]
    refine ⟨hinv, ?_⟩
    intro e he
    simp at he
    subst he
    exact Nat.lt_of_not_le h
  | case4 hier r cs r2 cs2 rest2 h ih =>
    rw [popWhile.eq_def]
    dsimp only
    rw [if_pos h]
    obtain ⟨hstack, ⟨hgood, hninc, hbot⟩, hemp, htop⟩ := hinv
    obtain ⟨⟨gcs, ncs, acs⟩, hpair, hstack2⟩ := hstack
    obtain ⟨⟨gcs2, ncs2, acs2⟩, hpair2, hstack3⟩ := hstack2
    obtain ⟨hlt, hge⟩ : r2.level < r.level ∧ ∀ c ∈ cs2, r.level ≤ c.heading.level := hpair
    apply ih
    have goodnode : goodForest [HNode.mk r cs] = true := by
      simp [goodForest, gcs, ncs]
      exact fun c hc => acs c hc
    refine ⟨⟨⟨?_, ?_, ?_⟩, ?_, hstack3⟩, ⟨hgood, hninc, ?_⟩, ?_, ?_⟩
    · rw [goodForest_append, gcs2]
      simpa using goodnode
    · unfold rootLevels
      rw [List.map_append]
      apply nonIncr_append_singleton _ _ ncs2
      intro a ha
      simp [rootLevels] at ha
      obtain ⟨n, hn, rfl⟩ := ha
      exact hge n hn
    · intro c hc
      rw [List.mem_append] at hc
      rcases hc with hc | hc
      · exact acs2 c hc
      · simp at hc
        subst hc
        simpa [HNode.heading] using hlt
    · cases rest2 with
      | nil => exact trivial
      | cons e3 rest3 => exact hpair2
    · intro lvl hlvl n hn
      apply hbot lvl _ n hn
      rw [bottomLevel_cons_cons]
      cases rest2 with
      | nil => simpa [bottomLevel] using hlvl
      | cons e3 rest3 =>
        rw [bottomLevel_cons_cons] at hlvl ⊢
        exact hlvl
    · intro habs
      cases habs
    · intro e he c hc
      simp at he
      subst he
      simp at hc
      rcases hc with hc | hc
      · exact le_trans h (hge c hc)
      · subst hc
        simpa [HNode.heading] using h
  | case5 hier r cs r2 cs2 rest2 h =>
    rw [popWhile.eq_def]
    dsimp only
    rw [if_neg h]
    refine ⟨hinv, ?_⟩
    intro e he
    simp at he
    subst he
    exact Nat.lt_of_not_le h

theorem buildStep_inv (s : List HNode × BuildStack) (h : HeadingRec)
    (hinv : stateInv s) : stateInv (buildStep s h) := by
  show stateInv ((popWhile h.level s.1 s.2).1, (h, []) :: (popWhile h.level s.1 s.2).2)
  obtain ⟨hstack, hhier, hemp, htop⟩ := hinv
  have hmid : midInv h.level s.1 s.2 := by
    refine ⟨hstack, hhier, ?_, ?_⟩
    · intro he n hn
      rw [hemp he] at hn
      cases hn
    · intro e he c hc
      rw [htop e he] at hc
      cases hc
  obtain ⟨⟨rstack, ⟨rgood, rninc, rbot⟩, remp, rtop⟩, rlt⟩ := popWhile_inv h.level s.1 s.2 hmid
  refine ⟨⟨?_, ?_, rstack⟩, ⟨rgood, rninc, ?_⟩, ?_, ?_⟩
  · exact ⟨by simp [goodForest], by simp [nonIncr, rootLevels], fun c hc => by cases hc⟩
  · cases hps : (popWhile h.level s.1 s.2).2 with
    | nil => exact trivial
    | cons e rest =>
      refine ⟨?_, ?_⟩
      · exact rlt e (by rw [hps]; rfl)
      · intro c hc
        exact rtop e (by rw [hps]; rfl) c hc
  · intro lvl hlvl n hn
    cases hps : (popWhile h.level s.1 s.2).2 with
    | nil =>
      rw [hps] at hlvl
      rw [bottomLevel_single] at hlvl
      injection hlvl with hlvl
      subst hlvl
      exact remp hps n hn
    | cons e rest =>
      rw [hps, bottomLevel_cons_cons, ← hps] at hlvl
      exact rbot lvl hlvl n hn
  · intro habs
    cases habs
  · intro e he
    rw [List.head?_cons] at he
    cases he
    rfl

theorem foldl_stateInv (hs : List HeadingRec) :
    ∀ s : List HNode × BuildStack, stateInv s → stateInv (hs.foldl buildStep s) := by
  induction hs with
  | nil => intro s h; exact h
  | cons h hs ih =>
    intro s hinv
    rw [List.foldl_cons]
    exact ih _ (buildStep_inv s h hinv)

theorem stateInv_init : stateInv (([], []) : List HNode × BuildStack) := by
  refine ⟨trivial, ⟨by simp [goodForest], by simp [nonIncr, rootLevels], ?_⟩, fun _ => rfl, ?_⟩
  · intro lvl hlvl
    simp [bottomLevel] at hlvl
  · intro e he
    simp at he

/-- Helper: the built forest is structurally well-formed and its root
levels are non-increasing. -/
theorem build_good (hs : List HeadingRec) :
    goodForest (build_hierarchy hs) = true ∧
      nonIncr (rootLevels (build_hierarchy hs)) = true := by
  have hst := foldl_stateInv hs ([], []) stateInv_init
  obtain ⟨hstack, hhier, hemp, htop⟩ := hst
  have hmid : midInv 0 (hs.foldl buildStep ([], [])).1 (hs.foldl buildStep ([], [])).2 := by
    refine ⟨hstack, hhier, ?_, ?_⟩
    · intro _ n _
      exact Nat.zero_le _
    · intro e _ c _
      exact Nat.zero_le _
  obtain ⟨⟨_, ⟨rgood, rninc, _⟩, _, _⟩, _⟩ := popWhile_inv 0 _ _ hmid
  exact ⟨rgood, rninc⟩


theorem range'_decomp (k a b : Nat) :
    List.range' k (1 + a + b) = k :: (List.range' (k + 1) a ++ List.range' (k + 1 + a) b) := by
  have h1 : List.range' (k + 1) a ++ List.range' (k + 1 + a) b = List.range' (k + 1) (b + a) := by
    have := List.range'_append (k + 1) a b 1
    simp only [Nat.one_mul] at this
    exact this
  rw [h1]
  have h2 : 1 + a + b = (b + a) + 1 := by omega
  rw [h2, List.range'_succ]

theorem levelAt_append_left (l t : List HeadingRec) (j : Nat) (h : j < l.length) :
    levelAt (l ++ t) j = levelAt l j := by
  unfold levelAt
  rw [List.getElem?_append_left h]

theorem levelAt_append_cons (l : List HeadingRec) (r : HeadingRec) (t : List HeadingRec) :
    levelAt (l ++ r :: t) l.length = r.level := by
  unfold levelAt
  rw [List.getElem?_append_right (le_refl l.length)]
  simp

theorem levelAt_mem (l : List HeadingRec) (j : Nat) (h : j < l.length) :
    ∃ x ∈ l, levelAt l j = x.level := by
  cases hx : l[j]? with
  | none =>
    rw [List.getElem?_eq_none_iff] at hx
    omega
  | some x =>
    refine ⟨x, List.getElem?_mem hx, ?_⟩
    unfold levelAt
    rw [hx]
    rfl

theorem levelAt_mem_drop (l : List HeadingRec) (t j : Nat) (h1 : t + 1 ≤ j) (h2 : j < l.length) :
    ∃ x ∈ l.drop (t + 1), levelAt l j = x.level := by
  cases hx : l[j]? with
  | none =>
    rw [List.getElem?_eq_none_iff] at hx
    omega
  | some x =>
    refine ⟨x, ?_, ?_⟩
    · apply List.getElem?_mem (n := j - (t + 1))
      rw [List.getElem?_drop]
      rw [show t + 1 + (j - (t + 1)) = j by omega]
      exact hx
    · unfold levelAt
      rw [hx]
      rfl

theorem lastBelow_eq_none (hs : List HeadingRec) (L k : Nat)
    (h : ∀ j < k, L ≤ levelAt hs j) : lastBelow hs L k = none := by
  induction k with
  | zero => rfl
  | succ k ih =>
    unfold lastBelow
    rw [if_neg (Nat.not_lt.mpr (h k (Nat.lt_succ_self k)))]
    exact ih (fun j hj => h j (Nat.lt_succ_of_lt hj))

theorem lastBelow_eq_some (hs : List HeadingRec) (L t k : Nat)
    (h1 : t < k) (h2 : levelAt hs t < L)
    (h3 : ∀ j, t < j → j < k → L ≤ levelAt hs j) : lastBelow hs L k = some t := by
  induction k with
  | zero => omega
  | succ k ih =>
    unfold lastBelow
    by_cases hk : t = k
    · subst hk
      rw [if_pos h2]
    · have htk : t < k := by omega
      rw [if_neg (Nat.not_lt.mpr (h3 k (by omega) (Nat.lt_succ_self k)))]
      exact ih htk (fun j hj1 hj2 => h3 j hj1 (Nat.lt_succ_of_lt hj2))

theorem lastBelow_congr (hs1 hs2 : List HeadingRec) (L k : Nat)
    (h : ∀ j < k, levelAt hs1 j = levelAt hs2 j) : lastBelow hs1 L k = lastBelow hs2 L k := by
  induction k with
  | zero => rfl
  | succ k ih =>
    unfold lastBelow
    rw [h k (Nat.lt_succ_self k)]
    rw [ih (fun j hj => h j (Nat.lt_succ_of_lt hj))]

theorem nearestSmaller_append (l t : List HeadingRec) (i : Nat) (h : i < l.length) :
    nearestSmaller (l ++ t) i = nearestSmaller l i := by
  unfold nearestSmaller
  rw [levelAt_append_left l t i h]
  exact lastBelow_congr _ _ _ _ (fun j hj => levelAt_append_left l t j (lt_trans hj h))

theorem sizeF_flatten (f : List HNode) : sizeF f = (flattenForest f).length := by
  induction f using flattenForest.induct with
  | case1 => simp [sizeF, flattenForest]
  | case2 r cs rest ih1 ih2 =>
    simp [sizeF, flattenForest, ih1, ih2]
    omega

theorem goodForest_cons_iff (r : HeadingRec) (cs rest : List HNode) :
    goodForest (HNode.mk r cs :: rest) = true ↔
      ((∀ c ∈ cs, r.level < c.heading.level) ∧ nonIncr (rootLevels cs) = true ∧
        goodForest cs = true ∧ goodForest rest = true) := by
  simp [goodForest, List.all_eq_true, and_assoc]

theorem flatten_level_gt (f : List HNode) : ∀ (lb : Nat), goodForest f = true →
    (∀ c ∈ f, lb < c.heading.level) → ∀ x ∈ flattenForest f, lb < x.level := by
  induction f using flattenForest.induct with
  | case1 =>
    intro lb _ _ x hx
    simp [flattenForest] at hx
  | case2 r cs rest ih1 ih2 =>
    intro lb hg hroots x hx
    rw [goodForest_cons_iff] at hg
    obtain ⟨hall, hnin, hgcs, hgrest⟩ := hg
    have hr : lb < r.level := by
      simpa [HNode.heading] using hroots (HNode.mk r cs) (by simp)
    simp only [flattenForest] at hx
    rcases List.mem_cons.mp hx with rfl | hx
    · exact hr
    · rcases List.mem_append.mp hx with hx | hx
      · exact lt_trans hr (ih1 r.level hgcs hall x hx)
      · exact ih2 lb hgrest (fun c hc => hroots c (List.mem_cons_of_mem _ hc)) x hx

theorem parentIdxAux_spec (f : List HNode) : ∀ (pre : List HeadingRec) (p : Option Nat),
    goodForest f = true → nonIncr (rootLevels f) = true → okCtx pre p f →
    parentIdxAux p pre.length f
      = (List.range' pre.length (sizeF f)).map
          (fun i => nearestSmaller (pre ++ flattenForest f) i) := by
  induction f using goodForest.induct with
  | case1 =>
    intro pre p _ _ _
    simp [parentIdxAux, sizeF]
  | case2 r cs rest ih1 ih2 =>
    intro pre p hg hroots hctx
    rw [goodForest_cons_iff] at hg
    obtain ⟨hall, hnin, hgcs, hgrest⟩ := hg
    have hrl : rootLevels (HNode.mk r cs :: rest) = r.level :: rootLevels rest := by
      simp [rootLevels, HNode.heading]
    rw [hrl] at hroots
    have hrestroots : nonIncr (rootLevels rest) = true := nonIncr_tail _ _ hroots
    have hrest_le : ∀ n ∈ rest, n.heading.level ≤ r.level := by
      intro n hn
      refine nonIncr_head_ge _ _ hroots n.heading.level ?_
      simp only [rootLevels, List.mem_map]
      exact ⟨n, hn, rfl⟩
    have hflatcs : ∀ x ∈ flattenForest cs, r.level < x.level :=
      flatten_level_gt cs r.level hgcs hall
    have hflat : flattenForest (HNode.mk r cs :: rest)
        = r :: (flattenForest cs ++ flattenForest rest) := by
      simp [flattenForest]
    have hsz : sizeF (HNode.mk r cs :: rest) = 1 + sizeF cs + sizeF rest := by
      simp [sizeF]
    set big := pre ++ flattenForest (HNode.mk r cs :: rest) with hbig
    have hbig3 : big = ((pre ++ [r]) ++ flattenForest cs) ++ flattenForest rest := by
      rw [hbig, hflat]
      simp
    have hlevhead : levelAt big pre.length = r.level := by
      rw [hbig, hflat]
      exact levelAt_append_cons pre r _
    have hhead : nearestSmaller big pre.length = p := by
      unfold nearestSmaller
      rw [hlevhead]
      cases p with
      | none =>
        simp only [okCtx] at hctx
        apply lastBelow_eq_none
        intro j hj
        rw [hbig, hflat, levelAt_append_left pre _ j hj]
        obtain ⟨x, hx, hxe⟩ := levelAt_mem pre j hj
        rw [hxe]
        exact hctx x hx (HNode.mk r cs) (by simp)
      | some t =>
        simp only [okCtx] at hctx
        obtain ⟨ht, hlt, hdrop⟩ := hctx
        apply lastBelow_eq_some
        · exact ht
        · rw [hbig, hflat, levelAt_append_left pre _ t ht]
          simpa [HNode.heading] using hlt (HNode.mk r cs) (by simp)
        · intro j hj1 hj2
          rw [hbig, hflat, levelAt_append_left pre _ j hj2]
          obtain ⟨x, hx, hxe⟩ := levelAt_mem_drop pre t j (by omega) hj2
          rw [hxe]
          exact hdrop x hx (HNode.mk r cs) (by simp)
    have hcs_eq : parentIdxAux (some pre.length) (pre.length + 1) cs
        = (List.range' (pre.length + 1) (sizeF cs)).map
            (fun i => nearestSmaller big i) := by
      have hctx1 : okCtx (pre ++ [r]) (some pre.length) cs := by
        simp only [okCtx]
        refine ⟨by simp, ?_, ?_⟩
        · intro n hn
          have h0 : levelAt (pre ++ [r]) pre.length = r.level := levelAt_append_cons pre r []
          rw [h0]
          exact hall n hn
        · intro x hx
          have h0 : (pre ++ [r]).drop (pre.length + 1) = [] := by
            apply List.drop_eq_nil_of_le
            simp
          rw [h0] at hx
          cases hx
      have hthis := ih1 (pre ++ [r]) (some pre.length) hgcs hnin hctx1
      have hpre1len : (pre ++ [r]).length = pre.length + 1 := by simp
      rw [hpre1len] at hthis
      rw [hthis]
      apply List.map_congr_left
      intro i hi
      rw [List.mem_range'_1] at hi
      have hszcs := sizeF_flatten cs
      have hilen : i < ((pre ++ [r]) ++ flattenForest cs).length := by
        simp only [List.length_append, List.length_cons, List.length_nil]
        omega
      rw [hbig3]
      exact (nearestSmaller_append _ _ i hilen).symm
    have hrest_eq : parentIdxAux p (pre.length + 1 + sizeF cs) rest
        = (List.range' (pre.length + 1 + sizeF cs) (sizeF rest)).map
            (fun i => nearestSmaller big i) := by
      have hctx2 : okCtx (pre ++ r :: flattenForest cs) p rest := by
        cases p with
        | none =>
          simp only [okCtx] at hctx ⊢
          intro x hx n hn
          rcases List.mem_append.mp hx with hx | hx
          · exact hctx x hx n (List.mem_cons_of_mem _ hn)
          · rcases List.mem_cons.mp hx with rfl | hx
            · exact hrest_le n hn
            · exact le_trans (hrest_le n hn) (le_of_lt (hflatcs x hx))
        | some t =>
          simp only [okCtx] at hctx ⊢
          obtain ⟨ht, hlt, hdrop⟩ := hctx
          refine ⟨?_, ?_, ?_⟩
          · simp only [List.length_append, List.length_cons]
            omega
          · intro n hn
            rw [levelAt_append_left pre _ t ht]
            exact hlt n (List.mem_cons_of_mem _ hn)
          · intro x hx n hn
            rw [List.drop_append_of_le_length (by omega)] at hx
            rcases List.mem_append.mp hx with hx | hx
            · exact hdrop x hx n (List.mem_cons_of_mem _ hn)
            · rcases List.mem_cons.mp hx with rfl | hx
              · exact hrest_le n hn
              · exact le_trans (hrest_le n hn) (le_of_lt (hflatcs x hx))
      have hthis := ih2 (pre ++ r :: flattenForest cs) p hgrest hrestroots hctx2
      have hpre2len : (pre ++ r :: flattenForest cs).length = pre.length + 1 + sizeF cs := by
        simp only [List.length_append, List.length_cons, sizeF_flatten]
        omega
      rw [hpre2len] at hthis
      rw [hthis]
      have hfin : (pre ++ r :: flattenForest cs) ++ flattenForest rest = big := by
        rw [hbig, hflat]
        simp
      rw [hfin]
    simp only [parentIdxAux]
    rw [hsz, range'_decomp]
    simp only [List.map_cons, List.map_append]
    rw [hhead, hcs_eq, hrest_eq]

theorem allNodes_children_good (f : List HNode) : goodForest f = true →
    ∀ n ∈ allNodesF f, goodForest n.children = true ∧
      ∀ c ∈ n.children, n.heading.level < c.heading.level := by
  induction f using goodForest.induct with
  | case1 =>
    intro _ n hn
    simp [allNodesF] at hn
  | case2 r cs rest ih1 ih2 =>
    intro hg n hn
    rw [goodForest_cons_iff] at hg
    obtain ⟨hall, hnin, hgcs, hgrest⟩ := hg
    simp only [allNodesF] at hn
    rcases List.mem_cons.mp hn with rfl | hn
    · exact ⟨hgcs, by simpa [HNode.children, HNode.heading] using hall⟩
    · rcases List.mem_append.mp hn with hn | hn
      · exact ih1 hgcs n hn
      · exact ih2 hgrest n hn

theorem good_descendants (f : List HNode) (hg : goodForest f = true) :
    ∀ n ∈ allNodesF f, ∀ d ∈ allNodesF n.children, n.heading.level < d.heading.level := by
  intro n hn d hd
  obtain ⟨hgc, hlt⟩ := allNodes_children_good f hg n hn
  have hdh : d.heading ∈ flattenForest n.children := by
    rw [← allNodesF_map_heading]
    exact List.mem_map_of_mem _ hd
  exact flatten_level_gt n.children n.heading.level hgc hlt d.heading hdh

/-- C1: in the forest built by `_build_hierarchy`, the parent of each
heading (identified by its pre-order position, which by C2 is its input
position) is exactly the nearest preceding heading of strictly smaller
level — a heading with no such predecessor is a top-level root — and no
heading is a descendant of a heading of equal or higher level (levels
strictly increase from a node to any of its descendants). -/
theorem build_hierarchy_nearest_parent (hs : List HeadingRec) :
    (parentIdxs (build_hierarchy hs)
        = (List.range hs.length).map (fun i => nearestSmaller hs i))
      ∧ ∀ n ∈ allNodesF (build_hierarchy hs), ∀ d ∈ allNodesF n.children,
          n.heading.level < d.heading.level := by
  obtain ⟨hg, hroots⟩ := build_good hs
  constructor
  · have h0 : okCtx ([] : List HeadingRec) none (build_hierarchy hs) := by
      simp only [okCtx]
      intro x hx
      cases hx
    have hmain := parentIdxAux_spec (build_hierarchy hs) [] none hg hroots h0
    simp only [List.length_nil, List.nil_append] at hmain
    unfold parentIdxs
    rw [hmain, flatten_build, sizeF_flatten, flatten_build, List.range_eq_range']
  · exact good_descendants _ hg


theorem existsPath_of_read (fs : FS) (p content : String)
    (h : fs.read p = some content) : fs.existsPath p = true := by
  unfold FS.read at h
  unfold FS.existsPath
  cases hl : fs.lookup p with
  | none => rw [hl] at h; simp at h
  | some o => rfl

/-- C3: a file whose only include directive resolves to the file itself
terminates under `recursive=true` — the embedding is a total function, the
recursion being bounded by the source's own `depth < 10` guard — and the
file appears exactly once in `processed_files`; the cycle check makes the
nested recursion yield no further records. -/
theorem find_includes_self_cycle (fs : FS) (a tgt content : String) (ln : Nat)
    (hread : fs.read a = some content)
    (hparse : parseIncludes content = [(tgt, ln)])
    (hres : resolvePath a tgt = a) :
    ∃ incs processed,
      find_includes fs a true = FindIncludesResult.ok a incs.length incs processed
        ∧ processed.count a = 1
        ∧ ∀ inc ∈ incs, inc.nested_includes = some [] := by
  have hex := existsPath_of_read fs a content hread
  have h2 : find_includes_in_file fs true 10 a 1 [a] = ([], [a]) := by
    show find_includes_in_file fs true (9 + 1) a 1 [a] = ([], [a])
    rw [find_includes_in_file]
    rw [if_pos (by simp)]
  have h1 : find_includes_in_file fs true 11 a 0 []
      = ([IncludeInfo.mk tgt a true ln 0 a (some [])], [a]) := by
    show find_includes_in_file fs true (10 + 1) a 0 [] = _
    rw [find_includes_in_file]
    rw [if_neg (by simp)]
    simp only [List.nil_append]
    rw [hread]
    show includeLoop fs true (fun r d pr => find_includes_in_file fs true 10 r d pr) a 0
        (parseIncludes content) [a] = _
    rw [hparse]
    simp only [includeLoop, hres, hex, h2]
    simp
  refine ⟨[IncludeInfo.mk tgt a true ln 0 a (some [])], [a], ?_, by simp, ?_⟩
  · unfold find_includes
    rw [if_neg (by simp [hex]), h1]
  · intro inc hinc
    simp at hinc
    subst hinc
    rfl

/-- C8: on a file containing exactly one include directive,
`find_includes` with `recursive=false` returns exactly one Include Record,
with depth 0 and no `nested_includes` value, whether or not the resolved
target exists. -/
theorem find_includes_nonrecursive_single (fs : FS) (f tgt content : String) (ln : Nat)
    (hread : fs.read f = some content)
    (hparse : parseIncludes content = [(tgt, ln)]) :
    find_includes fs f false
      = FindIncludesResult.ok f 1
          [IncludeInfo.mk tgt (resolvePath f tgt) (fs.existsPath (resolvePath f tgt)) ln 0 f
            none]
          [f] := by
  have hex := existsPath_of_read fs f content hread
  have h1 : find_includes_in_file fs false 11 f 0 []
      = ([IncludeInfo.mk tgt (resolvePath f tgt) (fs.existsPath (resolvePath f tgt)) ln 0 f
            none], [f]) := by
    show find_includes_in_file fs false (10 + 1) f 0 [] = _
    rw [find_includes_in_file]
    rw [if_neg (by simp)]
    simp only [List.nil_append]
    rw [hread]
    show includeLoop fs false (fun r d pr => find_includes_in_file fs false 10 r d pr) f 0
        (parseIncludes content) [f] = _
    rw [hparse]
    simp only [includeLoop]
    simp
  unfold find_includes
  rw [if_neg (by simp [hex]), h1]
  exact rfl

/-- C3 witness. -/
theorem find_includes_self_cycle_witness :
    ∃ incs processed,
      find_includes (FS.mk [("/a.adoc", some "include::/a.adoc[]")]) "/a.adoc" true
          = FindIncludesResult.ok "/a.adoc" incs.length incs processed
        ∧ processed.count "/a.adoc" = 1
        ∧ ∀ inc ∈ incs, inc.nested_includes = some [] :=
  find_includes_self_cycle (FS.mk [("/a.adoc", some "include::/a.adoc[]")])
    "/a.adoc" "/a.adoc" "include::/a.adoc[]" 1 (by decide) (by decide) (by decide)

/-- C8 witness (target does not exist). -/
theorem find_includes_nonrecursive_single_witness :
    find_includes (FS.mk [("/a.adoc", some "include::x.adoc[]")]) "/a.adoc" false
      = FindIncludesResult.ok "/a.adoc" 1
          [IncludeInfo.mk "x.adoc"
            (resolvePath "/a.adoc" "x.adoc")
            ((FS.mk [("/a.adoc", some "include::x.adoc[]")]).existsPath
              (resolvePath "/a.adoc" "x.adoc"))
            1 0 "/a.adoc" none]
          ["/a.adoc"] :=
  find_includes_nonrecursive_single (FS.mk [("/a.adoc", some "include::x.adoc[]")])
    "/a.adoc" "x.adoc" "include::x.adoc[]" 1 (by decide) (by decide)

/-- C4: a nonexistent path yields an `error` result whose message names the
missing path, and a read failure (the file exists but reading raises) also
yields an `error` result; the embedding is a total function into
result-or-error values, the model-level form of "never raises past its own
boundary". -/
theorem analyze_document_structure_error_result (fs : FS) (p : String) (ic : Bool) :
    (fs.existsPath p = false →
        analyze_document_structure fs p ic = AnalyzeResult.error ("File not found: " ++ p))
      ∧ (fs.read p = none →
        ∃ msg, analyze_document_structure fs p ic = AnalyzeResult.error msg) := by
  constructor
  · intro hex
    unfold analyze_document_structure
    rw [if_pos hex]
  · intro hr
    unfold analyze_document_structure
    by_cases hex : fs.existsPath p = false
    · exact ⟨"File not found: " ++ p, by rw [if_pos hex]⟩
    · refine ⟨"read failure: " ++ p, ?_⟩
      rw [if_neg hex, hr]

/-- C4 witness: a missing path and a file that exists but fails to read. -/
theorem analyze_document_structure_error_witness :
    (analyze_document_structure (FS.mk [("/x.adoc", none)]) "/y.adoc" false
        = AnalyzeResult.error ("File not found: " ++ "/y.adoc"))
      ∧ ∃ msg, analyze_document_structure (FS.mk [("/x.adoc", none)]) "/x.adoc" false
          = AnalyzeResult.error msg :=
  ⟨(analyze_document_structure_error_result (FS.mk [("/x.adoc", none)]) "/y.adoc" false).1
      (by decide),
   (analyze_document_structure_error_result (FS.mk [("/x.adoc", none)]) "/x.adoc" false).2
      (by decide)⟩


theorem find_key_comp (k0 v0 k : String) :
    ((fun q : String × String => q.1 == k) ∘
        fun q : String × String => if q.1 == k0 then (q.1, v0) else q)
      = fun q : String × String => q.1 == k := by
  funext q
  simp only [Function.comp_apply]
  split <;> rfl

theorem dictGet_insert_self (m : List (String × String)) (k0 v0 : String) :
    dictGet (dictInsert m k0 v0) k0 = some v0 := by
  unfold dictInsert dictGet
  by_cases hany : m.any (fun q => q.1 == k0) = true
  · rw [if_pos hany, List.find?_map, find_key_comp]
    cases hf : m.find? (fun q => q.1 == k0) with
    | none =>
      rw [List.find?_eq_none] at hf
      obtain ⟨q, hq, hqk⟩ := List.any_eq_true.mp hany
      exact absurd hqk (hf q hq)
    | some q1 =>
      have hq1 := List.find?_some hf
      have h1 : q1.1 = k0 := by simpa using hq1
      simp [h1]
  · rw [if_neg hany, List.find?_append]
    have hnone : m.find? (fun q => q.1 == k0) = none := by
      rw [List.find?_eq_none]
      intro q hq hc
      exact hany (List.any_eq_true.mpr ⟨q, hq, hc⟩)
    rw [hnone]
    simp

theorem dictGet_insert_other (m : List (String × String)) (k0 v0 k : String) (hk : k ≠ k0) :
    dictGet (dictInsert m k0 v0) k = dictGet m k := by
  unfold dictInsert dictGet
  by_cases hany : m.any (fun q => q.1 == k0) = true
  · rw [if_pos hany, List.find?_map, find_key_comp]
    cases hf : m.find? (fun q => q.1 == k) with
    | none => simp
    | some q1 =>
      have hq1 := List.find?_some hf
      have h1 : q1.1 ≠ k0 := by
        have h2 : q1.1 = k := by simpa using hq1
        rw [h2]
        exact hk
      simp [h1]
  · rw [if_neg hany, List.find?_append]
    have h3 : ((k0, v0).1 == k) = false := by
      simp
      exact fun h => hk h.symm
    have h2 : List.find? (fun q => q.1 == k) [(k0, v0)] = none := by
      simp [List.find?_cons, h3]
    rw [h2]
    simp

theorem dictGet_buildAttrs (l : List (String × String)) (k : String) :
    dictGet (buildAttrs l) k
      = ((l.filter (fun q => q.1 == k)).getLast?).map (fun q => q.2) := by
  induction l using List.reverseRecOn with
  | nil => simp [buildAttrs, dictGet]
  | append_singleton l q ih =>
    have hstep : buildAttrs (l ++ [q]) = dictInsert (buildAttrs l) q.1 q.2 := by
      unfold buildAttrs
      rw [List.foldl_append]
      rfl
    rw [hstep, List.filter_append]
    by_cases hk : k = q.1
    · subst hk
      rw [dictGet_insert_self]
      simp [List.filter_cons, List.getLast?_concat]
    · rw [dictGet_insert_other _ _ _ _ hk]
      have hq : (q.1 == q.1) = true := by simp
      have hq2 : (q.1 == k) = false := by
        simp
        exact fun h => hk h.symm
      simp only [List.filter_cons, hq2, List.filter_nil]
      simp only [Bool.false_eq_true, if_false]
      rw [List.append_nil]
      exact ih

/-- C6: the attribute map of `extract_metadata` binds each attribute name
to the value of its last (greatest document position) declaration — the
map is built by sequential dict insertion over ordered matches, so a later
declaration overwrites an earlier one. The witness instantiates the
`:author: Jane` / `:author: Jane2` case, yielding `Jane2`. -/
theorem extract_metadata_last_wins (fs : FS) (p content : String)
    (hread : fs.read p = some content) (name : String) :
    ∃ res, extract_metadata fs p = MetadataResult.ok res
      ∧ dictGet res.attributes name
          = (((parseAttrs content).filter (fun q => q.1 == name)).getLast?).map
              (fun q => q.2) := by
  have hex := existsPath_of_read fs p content hread
  unfold extract_metadata
  rw [if_neg (by simp [hex]), hread]
  exact ⟨_, rfl, dictGet_buildAttrs (parseAttrs content) name⟩

/-- C6 witness: the duplicate-author file binds author to the later value
`Jane2`. -/
theorem extract_metadata_last_wins_witness :
    (∃ res,
      extract_metadata (FS.mk [("/m.adoc", some ":author: Jane\n:author: Jane2")]) "/m.adoc"
          = MetadataResult.ok res
        ∧ dictGet res.attributes "author"
            = (((parseAttrs ":author: Jane\n:author: Jane2").filter
                (fun q => q.1 == "author")).getLast?).map (fun q => q.2))
      ∧ (((parseAttrs ":author: Jane\n:author: Jane2").filter
          (fun q => q.1 == "author")).getLast?).map (fun q => q.2) = some "Jane2" :=
  ⟨extract_metadata_last_wins (FS.mk [("/m.adoc", some ":author: Jane\n:author: Jane2")])
      "/m.adoc" ":author: Jane\n:author: Jane2" (by decide) "author",
    by decide⟩

theorem searchLines_file_eq (q : List Char) (cs0 : Bool) (file : String)
    (lines : List (List Char)) :
    ∀ r ∈ searchLines q cs0 file lines, r.file = file := by
  intro r hr
  unfold searchLines at hr
  rw [List.mem_filterMap] at hr
  obtain ⟨i, _, hi⟩ := hr
  dsimp only at hi
  split at hi
  · cases hi
  · cases hi
    rfl

theorem searchFiles_spec (fs : FS) (q : String) (cs0 : Bool) (l : List String) :
    (searchFiles fs q cs0 l).1 = l.filter (fun p => (fs.read p).isSome)
      ∧ ∀ r ∈ (searchFiles fs q cs0 l).2, (fs.read r.file).isSome = true := by
  induction l with
  | nil => exact ⟨rfl, fun r hr => by cases hr⟩
  | cons p rest ih =>
    cases hr : fs.read p with
    | none =>
      constructor
      · simp only [searchFiles, hr]
        rw [ih.1, List.filter_cons]
        simp [hr]
      · intro r hmem
        simp only [searchFiles, hr] at hmem
        exact ih.2 r hmem
    | some content =>
      constructor
      · simp only [searchFiles, hr]
        rw [List.filter_cons]
        simp [hr, ih.1]
      · intro r hmem
        simp only [searchFiles, hr] at hmem
        rcases List.mem_append.mp hmem with hmem | hmem
        · rw [searchLines_file_eq q.data cs0 p _ r hmem, hr]
          rfl
        · exact ih.2 r hmem

/-- C9: in a directory-wide `search_content` call, a file whose read fails
contributes no Search Results and does not abort the call: the returned
`files_searched` is exactly the candidate list restricted to the files
whose contents were successfully read, and every result comes from such a
file. -/
theorem search_content_skips_unreadable (fs : FS) (q : String) (cs0 : Bool) :
    ∃ searched results,
      search_content fs q none cs0 = SearchResult.ok q cs0 results.length searched results
        ∧ searched = (((fs.files.map (fun e => e.1)).filter
            (fun p => ".adoc".data.isSuffixOf p.data)).filter
              (fun p => (fs.read p).isSome))
        ∧ ∀ r ∈ results, (fs.read r.file).isSome = true := by
  have hspec := searchFiles_spec fs q cs0
    ((fs.files.map (fun e : String × Option String => e.1)).filter
      (fun p => ".adoc".data.isSuffixOf p.data))
  exact ⟨_, _, rfl, hspec.1, hspec.2⟩


theorem takeWhile_len_le (p : Char → Bool) (l : List Char) :
    (l.takeWhile p).length ≤ l.length := by
  induction l with
  | nil => simp
  | cons a l ih =>
    rw [List.takeWhile_cons]
    split
    · simpa using ih
    · simp

theorem wsRest_bounds (txt : List Char) (q minW stop : Nat) (title : List Char)
    (h : wsRest txt q minW = some (stop, title)) : q < stop ∧ stop ≤ txt.length := by
  unfold wsRest at h
  dsimp only at h
  cases hf : (List.range (runLen isPySpace txt q + 1)).reverse.find? (fun w =>
      decide (minW ≤ w) && decide (q + w < txt.length)
        && !(decide (txt[q + w]? = some '\n'))) with
  | none =>
    rw [hf] at h
    simp at h
  | some w =>
    rw [hf] at h
    dsimp only at h
    simp only [Option.some.injEq, Prod.mk.injEq] at h
    obtain ⟨hstop, htitle⟩ := h
    have hpred := List.find?_some hf
    simp only [Bool.and_eq_true, decide_eq_true_eq, Bool.not_eq_true',
      decide_eq_false_iff_not] at hpred
    obtain ⟨⟨hw1, hw2⟩, hw3⟩ := hpred
    have hch : txt[q + w]? = some (txt.get ⟨q + w, hw2⟩) := List.getElem?_eq_getElem hw2
    have hchne : txt.get ⟨q + w, hw2⟩ ≠ '\n' := by
      intro hc
      rw [hc] at hch
      exact hw3 hch
    have hdrop : txt.drop (q + w) = txt.get ⟨q + w, hw2⟩ :: txt.drop (q + w + 1) :=
      List.drop_eq_getElem_cons hw2
    have htlen : 1 ≤ ((txt.drop (q + w)).takeWhile (fun ch => !(decide (ch = '\n')))).length := by
      rw [hdrop, List.takeWhile_cons]
      rw [if_pos (by simpa using hchne)]
      simp
    have htlen2 : ((txt.drop (q + w)).takeWhile (fun ch => !(decide (ch = '\n')))).length
        ≤ txt.length - (q + w) := by
      calc ((txt.drop (q + w)).takeWhile (fun ch => !(decide (ch = '\n')))).length
          ≤ (txt.drop (q + w)).length := takeWhile_len_le _ _
        _ = txt.length - (q + w) := by simp
    rw [← hstop]
    constructor
    · omega
    · omega

theorem headMatchAt_bounds (txt : List Char) (p : Nat) (m : HMatch)
    (h : headMatchAt txt p = some m) :
    m.start = p ∧ m.start < m.stop ∧ m.stop ≤ txt.length := by
  unfold headMatchAt at h
  split at h
  · dsimp only at h
    split at h
    · simp at h
    · cases hw : wsRest txt (p + runLen (fun ch => decide (ch = '=')) txt p) 1 with
      | none =>
        rw [hw] at h
        simp at h
      | some r =>
        rw [hw] at h
        obtain ⟨stop, title⟩ := r
        simp only [Option.some.injEq] at h
        obtain ⟨h1, h2⟩ := wsRest_bounds txt _ 1 stop title hw
        rw [← h]
        refine ⟨rfl, ?_, ?_⟩
        · show p < stop
          omega
        · show stop ≤ txt.length
          exact h2
  · simp at h

theorem findHeadFrom_bounds (txt : List Char) (pos : Nat) (m : HMatch)
    (h : findHeadFrom txt pos = some m) :
    pos ≤ m.start ∧ m.start < m.stop ∧ m.stop ≤ txt.length := by
  unfold findHeadFrom at h
  obtain ⟨p, hp, hm⟩ := List.exists_of_findSome?_eq_some h
  rw [List.mem_range'_1] at hp
  obtain ⟨hm1, hm2, hm3⟩ := headMatchAt_bounds txt p m hm
  rw [hm1] at hm2 ⊢
  exact ⟨hp.1, hm2, hm3⟩

theorem findHeadFrom_none_of_ge (txt : List Char) (pos : Nat) (h : txt.length ≤ pos) :
    findHeadFrom txt pos = none := by
  unfold findHeadFrom
  rw [show txt.length - pos = 0 by omega]
  rfl

theorem headsGo_fuel (txt : List Char) : ∀ (f g pos : Nat),
    txt.length < pos + f → txt.length < pos + g →
    headsGo txt f pos = headsGo txt g pos := by
  intro f
  induction f with
  | zero =>
    intro g pos hf hg
    have hnone : findHeadFrom txt pos = none := findHeadFrom_none_of_ge txt pos (by omega)
    cases g with
    | zero => rfl
    | succ g =>
      simp only [headsGo, hnone]
  | succ f ih =>
    intro g pos hf hg
    cases g with
    | zero =>
      have hnone : findHeadFrom txt pos = none := findHeadFrom_none_of_ge txt pos (by omega)
      simp only [headsGo, hnone]
    | succ g =>
      simp only [headsGo]
      cases hm : findHeadFrom txt pos with
      | none => rfl
      | some m =>
        obtain ⟨h1, h2, h3⟩ := findHeadFrom_bounds txt pos m hm
        dsimp only
        rw [ih g m.stop (by omega) (by omega)]

theorem findHeadsFrom_suffix (txt : List Char) : ∀ (i pos : Nat) (m : HMatch),
    (findHeadsFrom txt pos)[i]? = some m →
    findHeadsFrom txt m.stop = (findHeadsFrom txt pos).drop (i + 1) := by
  intro i
  induction i with
  | zero =>
    intro pos m hm
    unfold findHeadsFrom at hm
    simp only [headsGo] at hm
    cases hf : findHeadFrom txt pos with
    | none =>
      rw [hf] at hm
      simp at hm
    | some m0 =>
      rw [hf] at hm
      simp only [List.getElem?_cons_zero, Option.some.injEq] at hm
      subst hm
      obtain ⟨h1, h2, h3⟩ := findHeadFrom_bounds txt pos m0 hf
      have hgoal : (findHeadsFrom txt pos).drop (0 + 1) = headsGo txt txt.length m0.stop := by
        unfold findHeadsFrom
        simp only [headsGo]
        rw [hf]
        simp
      rw [hgoal]
      unfold findHeadsFrom
      exact headsGo_fuel txt (txt.length + 1) txt.length m0.stop (by omega) (by omega)
  | succ i ih =>
    intro pos m hm
    unfold findHeadsFrom at hm
    simp only [headsGo] at hm
    cases hf : findHeadFrom txt pos with
    | none =>
      rw [hf] at hm
      simp at hm
    | some m0 =>
      rw [hf] at hm
      simp only [List.getElem?_cons_succ] at hm
      obtain ⟨h1, h2, h3⟩ := findHeadFrom_bounds txt pos m0 hf
      have hconv : headsGo txt txt.length m0.stop = findHeadsFrom txt m0.stop := by
        unfold findHeadsFrom
        exact headsGo_fuel txt txt.length (txt.length + 1) m0.stop (by omega) (by omega)
      rw [hconv] at hm
      have hrec := ih m0.stop m hm
      have hgoal : (findHeadsFrom txt pos).drop (i + 1 + 1)
          = (headsGo txt txt.length m0.stop).drop (i + 1) := by
        unfold findHeadsFrom
        simp only [headsGo]
        rw [hf]
        rw [List.drop_succ_cons]
      rw [hgoal, hconv]
      exact hrec


/-- C5: with `include_content=true`, the content recorded for the heading
at index `i` is exactly the text from the end of its match to the start of
the next heading in the document's heading list whose level is less than
or equal to its own — or the end of the document when none follows — with
leading and trailing whitespace stripped. -/
theorem analyze_content_spans (txt : List Char) (i : Nat) (m : HMatch)
    (hm : (findHeadsFrom txt 0)[i]? = some m) :
    ((analyzeHeadings txt true)[i]?).map (fun h => h.content)
      = some (some (String.mk (stripChars
          (slice txt m.stop (claimBoundary txt (findHeadsFrom txt 0) i m.level))))) := by
  have hb : nextBoundary txt m.level m.stop
      = claimBoundary txt (findHeadsFrom txt 0) i m.level := by
    unfold nextBoundary claimBoundary
    rw [findHeadsFrom_suffix txt i 0 m hm]
  unfold analyzeHeadings
  rw [List.getElem?_map, hm]
  unfold mkHeading
  simp [hb]

/-- C5 witness: in `= T\nbody\n== A\nx\n= U\nz` the first heading's content
runs from the end of its match (offset 3) to the start of the next heading
of level ≤ 1. -/
theorem analyze_content_spans_witness :
    ((analyzeHeadings ("= T\nbody\n== A\nx\n= U\nz".data) true)[0]?).map (fun h => h.content)
      = some (some (String.mk (stripChars
          (slice ("= T\nbody\n== A\nx\n= U\nz".data) 3
            (claimBoundary ("= T\nbody\n== A\nx\n= U\nz".data)
              (findHeadsFrom ("= T\nbody\n== A\nx\n= U\nz".data) 0) 0 1))))) :=
  analyze_content_spans ("= T\nbody\n== A\nx\n= U\nz".data) 0
    ⟨0, 3, 1, "T".data⟩ (by decide)

theorem filterMap_range_single {α : Type} (n i : Nat) (hi : i < n) (g : Nat → Option α)
    (v : α) (hg : g i = some v) (hother : ∀ j, j ≠ i → g j = none) :
    (List.range n).filterMap g = [v] := by
  induction n with
  | zero => omega
  | succ n ih =>
    rw [List.range_succ, List.filterMap_append]
    by_cases hin : i = n
    · subst hin
      have h1 : (List.range i).filterMap g = [] := by
        rw [List.filterMap_eq_nil_iff]
        intro a ha
        rw [List.mem_range] at ha
        exact hother a (by omega)
      rw [h1]
      simp [hg]
    · have h2 : List.filterMap g [n] = [] := by
        simp [hother n (fun hc => hin hc.symm)]
      rw [ih (by omega), h2]
      simp

/-- C7 counterexample: on the line `aaa` with query `aa` the code records
the single non-overlapping span (0,2), not the spans of every occurrence
of the query, which are (0,2) and (1,3); the claim as stated therefore
fails on self-overlapping queries. -/
theorem search_overlap_counterexample :
    ∃ r, search_content (FS.mk [("/s.adoc", some "aaa")]) "aa" (some "/s.adoc") false
        = SearchResult.ok "aa" false 1 ["/s.adoc"] [r]
      ∧ r.match_positions = [(0, 2)]
      ∧ allOccs "aa".data "aaa".data = [(0, 2), (1, 3)]
      ∧ r.match_positions ≠ allOccs "aa".data "aaa".data := by
  refine ⟨SearchRes.mk "/s.adoc" 1 "aaa" ["aaa"] [(0, 2)], ?_, rfl, by decide, by decide⟩
  rfl

/-- C7 (amended): for every searched file and every line of it on which
the query occurs, the per-file search loop produces exactly one Search
Result for that line, recording the 1-based line number, the trimmed line
text, the clipped context window of at most 5 lines, and the spans of the
occurrences found by the left-to-right non-overlapping scan (each next
scan resuming at the previous match end) — a line containing the query
twice yields one result with two spans, not two results. -/
theorem search_per_line (q : List Char) (cs0 : Bool) (file : String)
    (lines : List (List Char)) (i : Nat) (line : List Char)
    (hline : lines[i]? = some line)
    (hocc : findOccs (q.map (foldCase cs0)) (line.map (foldCase cs0)) ≠ []) :
    (searchLines q cs0 file lines).filter (fun r => r.line_number == i + 1)
        = [{ file := file
             line_number := i + 1
             line := String.mk (stripChars line)
             context := ((lines.drop (i - 2)).take
               (min lines.length (i + 3) - (i - 2))).map String.mk
             match_positions := findOccs (q.map (foldCase cs0)) (line.map (foldCase cs0)) }]
      ∧ ((lines.drop (i - 2)).take (min lines.length (i + 3) - (i - 2))).length ≤ 5 := by
  have hi : i < lines.length := by
    by_contra hc
    rw [List.getElem?_eq_none_iff.mpr (by omega)] at hline
    cases hline
  constructor
  · unfold searchLines
    rw [List.filter_filterMap]
    apply filterMap_range_single lines.length i hi
    · dsimp only
      rw [hline]
      simp only [Option.getD_some]
      rw [if_neg hocc]
      simp [Option.filter]
    · intro j hj
      dsimp only
      split
      · rfl
      · have hb : ((j + 1 : Nat) == i + 1) = false := by
          simp only [beq_eq_false_iff_ne, ne_eq]
          omega
        simp [Option.filter, hb]
  · have h1 : ((lines.drop (i - 2)).take (min lines.length (i + 3) - (i - 2))).length
        ≤ min lines.length (i + 3) - (i - 2) := by
      rw [List.length_take]
      omega
    omega

/-- C7 (amended) witness: the line `xaa aa` produces one result with the
two spans (1,3) and (4,6). -/
theorem search_per_line_witness :
    (searchLines "aa".data false "/f.adoc" [['z'], "xaa aa".data, ['y']]).filter
        (fun r => r.line_number == 1 + 1)
      = [{ file := "/f.adoc"
           line_number := 1 + 1
           line := String.mk (stripChars "xaa aa".data)
           context := (([['z'], "xaa aa".data, ['y']].drop (1 - 2)).take
             (min ([['z'], "xaa aa".data, ['y']] : List (List Char)).length (1 + 3)
               - (1 - 2))).map String.mk
           match_positions := findOccs ("aa".data.map (foldCase false))
             ("xaa aa".data.map (foldCase false)) }]
      ∧ (([['z'], "xaa aa".data, ['y']].drop (1 - 2)).take
          (min ([['z'], "xaa aa".data, ['y']] : List (List Char)).length (1 + 3)
            - (1 - 2))).length ≤ 5 :=
  search_per_line "aa".data false "/f.adoc" [['z'], "xaa aa".data, ['y']] 1
    "xaa aa".data (by decide) (by decide)

end AsciidocMcp
